import Mathlib

/-!
Verification of the `anagramist` search engine against its specification.

The Python source is shallowly embedded: Python `Counter` objects become
insertion-ordered association lists from characters to integer counts
(`PyCounter`), Python floats for scores become exact rationals wrapped in
`PyFloat` (which also carries the `inf` / `-inf` sentinels the solver uses),
and code that can raise returns `Except PyErr`.
-/

namespace Anagramist

/-- Python exceptions that the embedded code can raise. -/
inductive PyErr
  | typeError
  | indexError
  | keyError
  | valueError
  deriving DecidableEq, Repr

/-- Python float values as used by the solver: exact rationals plus the
`float("inf")` / `float("-inf")` sentinels. -/
inductive PyFloat
  | fin (q : ℚ)
  | pinf
  | ninf
  deriving DecidableEq, Repr

instance exceptDecEq {ε α : Type} [DecidableEq ε] [DecidableEq α] :
    DecidableEq (Except ε α)
  | .ok a, .ok b =>
    if h : a = b then .isTrue (by rw [h])
    else .isFalse (fun hh => by cases hh; exact h rfl)
  | .ok _, .error _ => .isFalse (fun hh => by cases hh)
  | .error _, .ok _ => .isFalse (fun hh => by cases hh)
  | .error e, .error f =>
    if h : e = f then .isTrue (by rw [h])
    else .isFalse (fun hh => by cases hh; exact h rfl)

/-- A Python `collections.Counter`: an insertion-ordered association list from
characters to integer counts.  Keys are unique in every counter the code
builds; the operations below mirror `dict`/`Counter` semantics. -/
abbrev PyCounter := List (Char × Int)

/-- `c[k]` with `Counter`'s default of `0` for a missing key (first matching
entry, as in a dict with unique keys). -/
def pcGet : PyCounter → Char → Int
  | [], _ => 0
  | (k, v) :: rest, c => if k = c then v else pcGet rest c

/-- Does the dict have key `k`? -/
def pcHasKey (c : PyCounter) (k : Char) : Bool :=
  c.any (fun p => p.1 = k)

/-- `c[k] = v`: update the entry in place, or append a fresh key at the end
(Python dicts preserve insertion order). -/
def pcSet : PyCounter → Char → Int → PyCounter
  | [], k, v => [(k, v)]
  | p :: rest, k, v => if p.1 = k then (k, v) :: rest else p :: pcSet rest k v

/-- `c[k] += d` (creating the key with value `d` if missing). -/
def pcAdd (c : PyCounter) (k : Char) (d : Int) : PyCounter :=
  pcSet c k (pcGet c k + d)

/-- `Counter(iterable_of_chars)`. -/
def pcOfChars (l : List Char) : PyCounter :=
  l.foldl (fun acc ch => pcAdd acc ch 1) []

/-- `Counter(s)` for a string `s`. -/
def pcOfString (s : String) : PyCounter :=
  pcOfChars s.data

/-- `c.subtract(s)` for a string `s`: subtract one for every character
occurrence (spaces included). -/
def pcSubChars (c : PyCounter) (l : List Char) : PyCounter :=
  l.foldl (fun acc ch => pcAdd acc ch (-1)) c

/-- `c.subtract(other)` for another counter: subtract entry-wise, creating
missing keys with negated counts. -/
def pcSubCounter (c other : PyCounter) : PyCounter :=
  other.foldl (fun acc p => pcAdd acc p.1 (-p.2)) c

/-- `c.values()`. -/
def pcValues (c : PyCounter) : List Int :=
  c.map Prod.snd

/-- `c.total()`: the sum of all counts (negative counts included). -/
def pcTotal (c : PyCounter) : Int :=
  (pcValues c).sum

/-- `any(v < 0 for v in c.values())`. -/
def pcAnyNeg (c : PyCounter) : Bool :=
  c.any (fun p => decide (p.2 < 0))

/-- `"".join(c.elements())` as a character list: each key repeated by its
count, in insertion order, keys with non-positive counts skipped. -/
def pcElements (c : PyCounter) : List Char :=
  c.flatMap (fun p => List.replicate p.2.toNat p.1)

/-- `Counter.__eq__`: counts equal for every key of either counter. -/
def pcEqv (a b : PyCounter) : Bool :=
  (a.map Prod.fst ++ b.map Prod.fst).all (fun k => pcGet a k = pcGet b k)

/-- `Counter.__le__`: multiset inclusion over the keys of both counters. -/
def pcLe (a b : PyCounter) : Bool :=
  (a.map Prod.fst ++ b.map Prod.fst).all (fun k => decide (pcGet a k ≤ pcGet b k))

/-- `del c[k]`: raises `KeyError` if the key is missing. -/
def pcDel (c : PyCounter) (k : Char) : Except PyErr PyCounter :=
  if pcHasKey c k then .ok (c.filter (fun p => ¬ p.1 = k))
  else .error .keyError

/-- `s[-1]` on a Python string: `IndexError` on the empty string. -/
def pyLast (s : String) : Except PyErr Char :=
  match s.data.getLast? with
  | some ch => .ok ch
  | none => .error .indexError

/-- `s[-3:]` on a Python string (the whole string when `len(s) < 3`). -/
def pySliceLast3 (s : String) : String :=
  ⟨s.data.drop (s.data.length - 3)⟩

/-- `sep.join(l)`. -/
def pyJoin (sep : String) : List String → String
  | [] => ""
  | [w] => w
  | w :: rest => w ++ sep ++ pyJoin sep rest

/-- `min(l)` for a nonempty list (the `0` default is never reached by the
callers, which always pass nonempty lists). -/
def pyMinQ : List ℚ → ℚ
  | [] => 0
  | x :: xs => xs.foldl min x

/-! ## Fragment (`src/anagramist/fragment.py`) -/

/-- The letter class treated as word-internal by the tokenizer. -/
def letterClassChars : List Char :=
  "ABCDEFGHIJKLMNOPQRSTUVWXYZabcdefghijklmnopqrstuvwxyz'-".data

/-- One step of `parse_sentence`'s loop over characters.  The word list is
kept reversed, so the head is Python's `words[-1]`. -/
def parseStep (ws : List String) (ch : Char) : List String :=
  match ws with
  | [] => []
  | w :: rest =>
    if letterClassChars.contains ch then (w.push ch) :: rest
    else if ch = ' ' then
      if w ≠ "" then "" :: w :: rest else w :: rest
    else
      let ws' := if w ≠ "" then "" :: w :: rest else w :: rest
      match ws' with
      | w' :: rest' => "" :: (w'.push ch) :: rest'
      | [] => []

/-- `parse_sentence` from `fragment.py`: partition a candidate sentence into
words, with `'` and `-` treated as letters and other punctuation split out as
one-character words. -/
def parseSentence (s : String) : List String :=
  match s.data.foldl parseStep [""] with
  | [] => []
  | w :: rest => if w ≠ "" then (w :: rest).reverse else rest.reverse

/-- `Counter(candidate_sentence)` followed by `letters[" "] = 0`, as in
`Fragment.__init__`. -/
def fragLetters (s : String) : PyCounter :=
  pcSet (pcOfString s) ' ' 0

/-- A `Fragment` value: the sentence, its space-zeroed letter counter, and its
word list. -/
structure Frag where
  sentence : String
  letters : PyCounter
  words : List String
  deriving DecidableEq, Repr

/-- `Fragment(candidate_sentence, word)` from `fragment.py`.  Note the `word`
flag: only when it is `true` is the sentence tokenized; the default call
`Fragment(s)` stores the whole sentence as the single word. -/
def mkFragment (s : String) (word : Bool) : Frag :=
  { sentence := s
    letters := fragLetters s
    words := if word then parseSentence s else [s] }

/-! ## Validators (`src/anagramist/__init__.py`) -/

/-- The alphabetic characters used by the punctuation test
`len(w) == 1 and w not in set("ABC...xyz")`. -/
def alphaChars : List Char :=
  "ABCDEFGHIJKLMNOPQRSTUVWXYZabcdefghijklmnopqrstuvwxyz".data

/-- Is `w` a single-character, non-alphabetic word? -/
def isPunctWord (w : String) : Bool :=
  w.length = 1 &&
    match w.data with
    | [c] => ¬ alphaChars.contains c
    | _ => false

/-- `expected_punctuation = [":", ",", "!", "!"]`. -/
def expectedPunctuation : List String :=
  [":", ",", "!", "!"]

/-- The punctuation-order loop shared by `soft_validate` and `hard_validate`:
for each single-character non-alphabetic word, index `expected_punctuation`
at the running punctuation count (raising `IndexError` past its end), return
`False` on a mismatch, else advance.  `ok true` means the loop completed. -/
def punctLoop : List String → Nat → Except PyErr Bool
  | [], _ => .ok true
  | w :: rest, pos =>
    if isPunctWord w then
      match expectedPunctuation.get? pos with
      | none => .error .indexError
      | some e => if e ≠ w then .ok false else punctLoop rest (pos + 1)
    else punctLoop rest pos

/-- Python list indexing on the length list: a negative index counts from the
end (the loop only ever uses `pos - 1`, which is `-1` at `pos = 0`). -/
def pyIdxNat (l : List Nat) (i : Int) : Nat :=
  if i < 0 then l.getD (l.length - (-i).toNat) 0 else l.getD i.toNat 0

/-- The body of the 11/8 word-length loop over `enumerate(word_lengths)`. -/
def lengthLoop (lens : List Nat) : List (Nat × Nat) → Bool
  | [] => true
  | (pos, len) :: rest =>
    if len ≤ 8 then lengthLoop lens rest
    else if len ≠ 11 then false
    else if pos = lens.length - 1 then lengthLoop lens rest
    else if pyIdxNat lens ((pos : Int) - 1) ≠ 8 ∧ lens.getD (pos + 1) 0 ≠ 8 then false
    else lengthLoop lens rest

/-- The c1663 word-length rule: every word longer than 8 characters must be
exactly 11 long and, unless it is the most recently placed word, must have a
length-8 neighbour. -/
def lengthRule (ws : List String) : Bool :=
  let lens := ws.map String.length
  lengthLoop lens lens.enum

/-- `for w in vocabulary: if Fragment(w).letters <= remaining: break
else: return False` — does some vocabulary word fit in `remaining`? -/
def anySpellable (vocab : List String) (remaining : PyCounter) : Bool :=
  vocab.any (fun w => pcLe (fragLetters w) remaining)

/-- The final soft-validation loop: is a vocabulary word ending in `"w"` still
spellable?  Evaluating `w[-1]` raises `IndexError` when the empty string is in
the vocabulary and fits. -/
def wEndLoop (remaining : PyCounter) : List String → Except PyErr Bool
  | [] => .ok false
  | w :: rest =>
    if pcLe (fragLetters w) remaining then
      match w.data.getLast? with
      | none => .error .indexError
      | some ch => if ch = 'w' then .ok true else wEndLoop remaining rest
    else wEndLoop remaining rest

/-- The two remaining-letter checks closing c1663 soft validation ("the word
bank must contain w!! until the end" and "a word ending in w must still be
spellable"). -/
def softTailGT (remaining : PyCounter) (vocab : List String) : Except PyErr Bool := do
  if pcTotal remaining > 3 then
    if pcGet remaining 'w' = 0 ∨ pcGet remaining '!' < 2 then return false
  if pcTotal remaining > 2 then
    let found ← wEndLoop remaining vocab
    if !found then return false
  return true

/-- The `remaining.total() == 2` check of c1663 soft validation (the final
three characters must be `w!!`), followed by `softTailGT`. -/
def softC1663Tail (remaining : PyCounter) (vocab : List String) (sentence : String) :
    Except PyErr Bool := do
  if pcTotal remaining = 2 then
    let lastCh ← pyLast sentence
    if lastCh ≠ 'w' ∨ pcGet remaining '!' ≠ 2 then return false
  softTailGT remaining vocab

/-- The constraints `soft_validate` applies only in c1663 mode: first word
`"I"` (indexing `words[0]`), punctuation order, the 11/8 word-length rule, and
the remaining-letter checks of `softC1663Tail`. -/
def softC1663Checks (ws : List String) (remaining : PyCounter)
    (vocab : List String) (sentence : String) : Except PyErr Bool := do
  let w0 ← match ws.head? with
    | none => Except.error PyErr.indexError
    | some w => pure w
  if w0 ≠ "I" then return false
  let pr ← punctLoop ws 0
  if !pr then return false
  if !(lengthRule ws) then return false
  softC1663Tail remaining vocab sentence

/-- `soft_validate(placed, remaining, vocabulary, c1663)` from
`src/anagramist/__init__.py` (lines 362-465). -/
def softValidateF (placed : Frag) (remaining : PyCounter) (vocab : List String)
    (c1663 : Bool) : Except PyErr Bool := do
  if pcAnyNeg remaining then return false
  if placed.words.any (fun w => !(vocab.contains w)) then return false
  if pcTotal remaining > 0 then
    if !(anySpellable vocab remaining) then return false
  if !c1663 then return true
  softC1663Checks placed.words remaining vocab placed.sentence

/-- `hard_validate(placed, remaining, original_letter_bank, vocabulary, c1663)`
from `src/anagramist/__init__.py` (lines 468-531).  The `vocabulary` parameter
defaults to `None` in the source; evaluating `w not in None` raises
`TypeError` (only reached when the word list is nonempty, since `any([])` is
`False`).  The `remaining` parameter is unused by the source body. -/
def hardValidateF (placed : Frag) (remaining : PyCounter) (bank : PyCounter)
    (vocab : Option (List String)) (c1663 : Bool) : Except PyErr Bool := do
  if !(pcEqv placed.letters bank) then return false
  let vocabBad ← match placed.words, vocab with
    | [], _ => pure false
    | _ :: _, none => Except.error PyErr.typeError
    | ws, some V => pure (ws.any (fun w => !(V.contains w)))
  if vocabBad then return false
  if !c1663 then return true
  let w0 ← match placed.words.head? with
    | none => Except.error PyErr.indexError
    | some w => pure w
  if w0 ≠ "I" then return false
  if pySliceLast3 placed.sentence ≠ "w!!" then return false
  let pr ← punctLoop placed.words 0
  if !pr then return false
  if !(lengthRule placed.words) then return false
  return true

/-! ## Search-tree rows and the solver's table entries -/

/-- A row of the `visited` table: `(placed, remaining, parent, score,
cumulative_score, mean_score, status)`.  The three score columns are nullable
(`REAL` columns holding Python `None`). -/
structure Row where
  placed : String
  remaining : String
  parent : String
  score : Option PyFloat
  cumulative : Option PyFloat
  meanScore : Option PyFloat
  status : Int
  deriving DecidableEq, Repr

/-- A fully populated table entry as produced by `backpropogation` and
`Solver.assessment` before `push`. -/
structure Entry where
  placed : String
  remaining : String
  parent : String
  score : PyFloat
  cumulative : PyFloat
  meanScore : PyFloat
  status : Int
  deriving DecidableEq, Repr

/-- `EXPLORATION_SCORE = float(-40)`. -/
def EXPLORATION_SCORE : ℚ := -40

/-! ## `backpropogation` (`src/anagramist/__init__.py` lines 270-338)

`statistics.geometric_mean` is irrational-valued; the embedding takes it as a
function parameter `gm` (every claim below is independent of its value). -/

/-- The loop of `backpropogation`, recursing over the scored words and
carrying the built-up `sentence` and `scores`.  `lastWord` is
`scored_words[-1][0]` (evaluated only inside the loop, where the list is
necessarily nonempty). -/
def backpropGo (gm : List ℚ → ℚ) (node : String) (bank : PyCounter)
    (lastWord : String) (c1663 : Bool) :
    List (String × ℚ) → String → List ℚ → Except PyErr (List Entry)
  | [], _, _ => .ok []
  | (w, score) :: rest, sentence0, scores0 => do
    let parent := sentence0
    let sentence := if sentence0 = "" then sentence0 ++ w else sentence0 ++ " " ++ w
    let scores := scores0 ++ [score]
    if node.startsWith sentence then
      -- already in the db: keep building scores, skip the entry
      backpropGo gm node bank lastWord c1663 rest sentence scores
    else
      let remaining := pcSubChars bank sentence.data
      let hv ← hardValidateF (mkFragment sentence false) remaining bank none c1663
      let winnerCase : Except PyErr (String × PyCounter × PyFloat) :=
        if hv then do
          let remaining' ← pcDel remaining '!'
          pure (sentence ++ "!!", remaining', PyFloat.pinf)
        else if w = lastWord then pure (sentence, remaining, PyFloat.ninf)
        else pure (sentence, remaining, PyFloat.fin score)
      let (sentence', remaining', score') ← winnerCase
      let cumulative := PyFloat.fin scores.sum
      let offset := |pyMinQ scores| + 1
      let (meanScore, status) :=
        if score' = PyFloat.ninf ∨ cumulative = PyFloat.ninf then (PyFloat.ninf, (1 : Int))
        else (PyFloat.fin (gm (scores.map (fun s => s + offset)) - offset), 0)
      let entry : Entry :=
        ⟨sentence', String.mk (pcElements remaining'), parent, score', cumulative,
          meanScore, status⟩
      if score' = PyFloat.pinf ∨ score' = PyFloat.ninf ∨ cumulative = PyFloat.ninf ∨
          meanScore = PyFloat.ninf then
        pure [entry]
      else do
        let restEntries ← backpropGo gm node bank lastWord c1663 rest sentence scores
        pure (entry :: restEntries)

/-- `backpropogation(node, letter_bank, scored_words, c1663)`. -/
def backpropE (gm : List ℚ → ℚ) (node : String) (bank : PyCounter)
    (scoredWords : List (String × ℚ)) (c1663 : Bool) : Except PyErr (List Entry) :=
  match scoredWords.getLast? with
  | none => .ok []
  | some (lw, _) => backpropGo gm node bank lw c1663 scoredWords "" []

/-! ## `Solver` methods (`src/anagramist/solver.py`) -/

/-- `Solver.hard_validate(candidate)`: the same checks as the free
`hard_validate`, with the solver's letter bank and (always present)
vocabulary, on the untokenized `Fragment(candidate)`. -/
def solverHardValidate (bank : PyCounter) (vocab : List String) (c1663 : Bool)
    (candidate : String) : Except PyErr Bool :=
  hardValidateF (mkFragment candidate false)
    (pcSubCounter bank (mkFragment candidate false).letters) bank (some vocab) c1663

/-- `Solver.soft_validate(candidate)`: the same checks as the free
`soft_validate`, with `remaining` recomputed from the solver's letter bank. -/
def solverSoftValidate (bank : PyCounter) (vocab : List String) (c1663 : Bool)
    (candidate : String) : Except PyErr Bool :=
  softValidateF (mkFragment candidate false)
    (pcSubCounter bank (mkFragment candidate false).letters) vocab c1663

/-- The body of one index `i` of `Solver.assessment`'s loop (`solver.py`
lines 194-239): the entry pushed for prefix `i` and whether the loop breaks. -/
def assessStep (bank : PyCounter) (vocab : List String) (c1663 : Bool)
    (scoredTokens : List (String × ℚ)) (i : Nat) : Except PyErr (Entry × Bool) := do
  let words := (scoredTokens.take i).map Prod.fst
  let scores := (scoredTokens.take i).map Prod.snd
  let sentence := pyJoin " " words
  let parent := pyJoin " " words.dropLast
  let score := PyFloat.fin scores.sum
  let status : Int := 0
  let remaining := pcSubChars bank sentence.data
  let hv ← solverHardValidate bank vocab c1663 sentence
  let winnerCase : Except PyErr (String × PyCounter × PyFloat × Int) :=
    if hv then
      if c1663 then do
        let remaining' ← pcDel remaining '!'
        pure (sentence ++ "!!", remaining', PyFloat.pinf, status)
      else pure (sentence, remaining, PyFloat.pinf, status)
    else if i = scoredTokens.length then pure (sentence, remaining, PyFloat.ninf, 1)
    else pure (sentence, remaining, score, status)
  let (sentence', remaining', score', status') ← winnerCase
  let entry : Entry :=
    ⟨sentence', String.mk (pcElements remaining'), parent, PyFloat.fin 0, PyFloat.fin 0,
      score', status'⟩
  pure (entry, score' = PyFloat.pinf ∨ score' = PyFloat.ninf)

/-- Run `Solver.assessment`'s loop over the indices `1..n`, stopping after an
entry with `score = ±inf`. -/
def assessRun (bank : PyCounter) (vocab : List String) (c1663 : Bool)
    (scoredTokens : List (String × ℚ)) : List Nat → Except PyErr (List Entry)
  | [] => .ok []
  | i :: rest => do
    let (e, stop) ← assessStep bank vocab c1663 scoredTokens i
    if stop then pure [e]
    else do
      let es ← assessRun bank vocab c1663 scoredTokens rest
      pure (e :: es)

/-- `Solver.assessment(candidate)` (`solver.py` lines 175-240), with the
oracle's aligned word/score output passed in as `scoredTokens`. -/
def assessmentE (bank : PyCounter) (vocab : List String) (c1663 : Bool)
    (scoredTokens : List (String × ℚ)) : Except PyErr (List Entry) :=
  assessRun bank vocab c1663 scoredTokens (List.range' 1 scoredTokens.length)

/-! ## `selection` weighting (`src/anagramist/__init__.py` lines 164-200) -/

/-- The default row for a legal next word that is not yet in the store:
`(new_sentence, "", "", EXPLORATION_SCORE, None, None, 0)`. -/
def unexploredRow (s : String) : Row :=
  ⟨s, "", "", some (PyFloat.fin EXPLORATION_SCORE), none, none, 0⟩

/-- `explored_vocab.get(new_sentence, default)`. -/
def childRow (explored : List Row) (s : String) : Row :=
  match explored.find? (fun r => r.placed = s) with
  | some r => r
  | none => unexploredRow s

/-- The `words` list built by `selection`: one row per valid next word,
keeping only rows with status `0`. -/
def selectionRows (validVocab : List String) (explored : List Row)
    (placedLetters : String) : List Row :=
  (validVocab.map (fun word => childRow explored (placedLetters ++ " " ++ word))).filter
    (fun r => r.status = 0)

/-- Read `w[3]` (the `score` column) as a rational.  A `None` score would make
Python's `min` raise `TypeError`; the solver stores finite scores on every
status-0 row it weights (a `+inf` winner row ends the run before selection),
so the embedding covers the finite case and maps the rest to the error. -/
def rowScoreQ (r : Row) : Except PyErr ℚ :=
  match r.score with
  | some (PyFloat.fin q) => .ok q
  | _ => .error .typeError

/-- Evaluate a score column for every row in order, propagating the first
exception (a Python list comprehension). -/
def mapValsE (f : Row → Except PyErr ℚ) : List Row → Except PyErr (List ℚ)
  | [] => .ok []
  | r :: rest => do
    let q ← f r
    let qs ← mapValsE f rest
    pure (q :: qs)

/-- The weights `[w[3] + weight_offset for w in words]` with
`weight_offset = abs(min([w[3] for w in words])) + 1` (Python's `min([])`
raises `ValueError`; `selection` returns a dead end before reaching it). -/
def selectionWeightsE (rows : List Row) : Except PyErr (List ℚ) := do
  let scores ← mapValsE rowScoreQ rows
  match scores with
  | [] => .error .valueError
  | s :: srest =>
    let offset := |pyMinQ (s :: srest)| + 1
    pure ((s :: srest).map (fun q => q + offset))

/-- The spec's §4.6 description of the same weights: each explored child
weighted by its `mean_score` (unexplored children, whose default row has no
`mean_score`, by `EXPLORATION_SCORE`), shifted by `abs(min) + 1`.  Stated from
the spec's words to compare against `selectionWeightsE`. -/
def rowMeanQ (r : Row) : Except PyErr ℚ :=
  match r.meanScore with
  | some (PyFloat.fin q) => .ok q
  | none => .ok EXPLORATION_SCORE
  | _ => .error .typeError

/-- Spec-described weights (mean-score based); see `rowMeanQ`. -/
def specSelectionWeights (rows : List Row) : Except PyErr (List ℚ) := do
  let scores ← mapValsE rowMeanQ rows
  match scores with
  | [] => .error .valueError
  | s :: srest =>
    let offset := |pyMinQ (s :: srest)| + 1
    pure ((s :: srest).map (fun q => q + offset))

/-! ## `PersistentSearchTree.verify_integrity`
(`src/anagramist/persistentsearchtree.py` lines 262-295) -/

/-- `Fragment` defines no `__add__`, so Python raises `TypeError` on
`Fragment(placed) + Fragment(remaining)`. -/
def fragAdd (_a _b : Frag) : Except PyErr Frag :=
  .error .typeError

/-- `bins.update((key,))`: bump one bucket of the histogram. -/
def binsUpdate (bins : List (String × Nat)) (key : String) : List (String × Nat) :=
  if bins.any (fun p => p.1 = key) then
    bins.map (fun p => if p.1 = key then (key, p.2 + 1) else p)
  else bins ++ [(key, 1)]

/-- The row loop of `verify_integrity`, accumulating the histogram and the
row count. -/
def verifyLoop (bins : List (String × Nat)) (rowcount : Nat) :
    List (String × String) → Except PyErr (List (String × Nat) × Nat)
  | [] => .ok (bins, rowcount)
  | (placed, remaining) :: rest => do
    let combined ← fragAdd (mkFragment placed false) (mkFragment remaining false)
    let key := String.mk ((pcElements combined.letters).mergeSort (fun a b => a ≤ b))
    verifyLoop (binsUpdate bins key) (rowcount + 1) rest

/-- `verify_integrity()`: note the source fetches the rows with `LIMIT 10`. -/
def verifyIntegrityE (rows : List (String × String)) :
    Except PyErr (Bool × List (String × Nat)) := do
  let fetched := rows.take 10
  let (bins, rowcount) ← verifyLoop [] 0 fetched
  if rowcount < 1 then return (true, bins)
  return (bins.length = 1, bins)

/-! ## `PersistentSearchTree.sample`

The method is commented out in `persistentsearchtree.py` (lines 297-306);
only its caller `Solver.select` and the tests exist.  It is modelled from the
spec below. -/

/-- Is `placed` equal to, or rooted at, the prefix `pfx`? -/
def rootedAt (pfx placed : String) : Bool :=
  placed = pfx || placed.startsWith (pfx ++ " ")

/-- Modelled from the spec: `PersistentSearchTree.sample(prefix)` is missing
from the source (the method body is commented out), so per spec §4.5 it is a
weighted random selection among rows with `status == OK` whose `placed`
equals or is rooted at the prefix, returning none exactly when no such row
exists.  Randomness is modelled by the index `choice` into the eligible
rows. -/
def sampleModel (rows : List Row) (pfx : String) (choice : Nat) : Option Row :=
  let eligible := rows.filter (fun r => r.status = 0 && rootedAt pfx r.placed)
  if eligible.isEmpty then none
  else eligible.get? (choice % eligible.length)

/-! ## Counter lemmas -/

/-- Keys of a counter are pairwise distinct (true of every counter the
embedded code builds, since `pcSet` only appends fresh keys). -/
def pcWF (c : PyCounter) : Prop :=
  (c.map Prod.fst).Nodup

theorem pcGet_pcSet_self (c : PyCounter) (k : Char) (v : Int) :
    pcGet (pcSet c k v) k = v := by
  induction c with
  | nil => simp [pcSet, pcGet]
  | cons p rest ih =>
    obtain ⟨pk, pv⟩ := p
    by_cases h : pk = k
    · simp [pcSet, pcGet, h]
    · simp [pcSet, pcGet, h, ih]

theorem pcGet_pcSet_of_ne (c : PyCounter) (k k' : Char) (v : Int) (h : k' ≠ k) :
    pcGet (pcSet c k v) k' = pcGet c k' := by
  induction c with
  | nil => simp [pcSet, pcGet, Ne.symm h]
  | cons p rest ih =>
    obtain ⟨pk, pv⟩ := p
    by_cases hp : pk = k
    · subst hp
      simp [pcSet, pcGet, Ne.symm h, fun hh : pk = k' => h (hh.symm)]
    · by_cases hp' : pk = k'
      · subst hp'
        simp [pcSet, pcGet, hp]
      · simp [pcSet, pcGet, hp, hp', ih]

theorem pcGet_pcAdd_self (c : PyCounter) (k : Char) (d : Int) :
    pcGet (pcAdd c k d) k = pcGet c k + d :=
  pcGet_pcSet_self c k _

theorem pcGet_pcAdd_of_ne (c : PyCounter) (k k' : Char) (d : Int) (h : k' ≠ k) :
    pcGet (pcAdd c k d) k' = pcGet c k' :=
  pcGet_pcSet_of_ne c k k' _ h

theorem pcGet_foldl_pcAdd (l : List Char) (d : Int) (c : PyCounter) (k : Char) :
    pcGet (l.foldl (fun acc ch => pcAdd acc ch d) c) k =
      pcGet c k + d * l.count k := by
  induction l generalizing c with
  | nil => simp
  | cons ch rest ih =>
    simp only [List.foldl_cons, ih, List.count_cons]
    by_cases hk : ch = k
    · subst hk
      simp [pcGet_pcAdd_self]
      ring
    · rw [pcGet_pcAdd_of_ne c ch k d (Ne.symm hk)]
      simp [hk]

theorem pcGet_pcOfChars (l : List Char) (k : Char) :
    pcGet (pcOfChars l) k = l.count k := by
  unfold pcOfChars
  rw [pcGet_foldl_pcAdd]
  simp [pcGet]

theorem pcGet_pcSubChars (c : PyCounter) (l : List Char) (k : Char) :
    pcGet (pcSubChars c l) k = pcGet c k - l.count k := by
  unfold pcSubChars
  rw [pcGet_foldl_pcAdd]
  ring

theorem pcGet_fragLetters (s : String) (k : Char) :
    pcGet (fragLetters s) k = if k = ' ' then 0 else (s.data.count k : Int) := by
  unfold fragLetters pcOfString
  by_cases hk : k = ' '
  · simp [hk, pcGet_pcSet_self]
  · rw [pcGet_pcSet_of_ne _ _ _ _ hk, pcGet_pcOfChars]
    simp [hk]

theorem pcGet_eq_zero_of_not_key (c : PyCounter) (k : Char)
    (h : k ∉ c.map Prod.fst) : pcGet c k = 0 := by
  induction c with
  | nil => simp [pcGet]
  | cons p rest ih =>
    obtain ⟨pk, pv⟩ := p
    simp only [List.map_cons, List.mem_cons, not_or] at h
    simp [pcGet, Ne.symm h.1, ih h.2]

theorem mem_of_key (c : PyCounter) (k : Char) (h : k ∈ c.map Prod.fst) :
    (k, pcGet c k) ∈ c := by
  induction c with
  | nil => cases h
  | cons p rest ih =>
    obtain ⟨pk, pv⟩ := p
    simp only [List.map_cons, List.mem_cons] at h
    by_cases hk : pk = k
    · subst hk
      simp [pcGet]
    · rcases h with h | h
      · exact absurd h.symm hk
      · simp only [pcGet, if_neg hk]
        exact List.mem_cons_of_mem _ (ih h)

theorem key_mem_of_mem_pcSet (c : PyCounter) (k a : Char) (v : Int)
    (h : a ∈ (pcSet c k v).map Prod.fst) : a ∈ c.map Prod.fst ∨ a = k := by
  induction c with
  | nil => exact Or.inr (by simpa [pcSet] using h)
  | cons p rest ih =>
    obtain ⟨pk, pv⟩ := p
    simp only [List.map_cons, List.mem_cons]
    by_cases hp : pk = k
    · simp only [pcSet, if_pos hp, List.map_cons, List.mem_cons] at h
      rcases h with h | h
      · exact Or.inr h
      · exact Or.inl (Or.inr h)
    · simp only [pcSet, if_neg hp, List.map_cons, List.mem_cons] at h
      rcases h with h | h
      · exact Or.inl (Or.inl h)
      · rcases ih h with h2 | h2
        · exact Or.inl (Or.inr h2)
        · exact Or.inr h2

theorem pcWF_pcSet (c : PyCounter) (k : Char) (v : Int) (h : pcWF c) :
    pcWF (pcSet c k v) := by
  induction c with
  | nil => simp [pcWF, pcSet]
  | cons p rest ih =>
    obtain ⟨pk, pv⟩ := p
    unfold pcWF at h ⊢
    simp only [List.map_cons, List.nodup_cons] at h
    obtain ⟨hpk, hrest⟩ := h
    by_cases hp : pk = k
    · subst hp
      have hset : pcSet ((pk, pv) :: rest) pk v = (pk, v) :: rest := by
        simp [pcSet]
      rw [hset]
      simp only [List.map_cons]
      exact List.nodup_cons.mpr ⟨hpk, hrest⟩
    · have hset : pcSet ((pk, pv) :: rest) k v = (pk, pv) :: pcSet rest k v := by
        simp [pcSet, hp]
      rw [hset]
      simp only [List.map_cons]
      refine List.nodup_cons.mpr ⟨?_, ih hrest⟩
      intro hmem
      rcases key_mem_of_mem_pcSet rest k pk v hmem with h2 | h2
      · exact hpk h2
      · exact hp h2

theorem pcWF_pcAdd (c : PyCounter) (k : Char) (d : Int) (h : pcWF c) :
    pcWF (pcAdd c k d) :=
  pcWF_pcSet c k _ h

theorem pcWF_foldl_pcAdd (l : List Char) (d : Int) (c : PyCounter) (h : pcWF c) :
    pcWF (l.foldl (fun acc ch => pcAdd acc ch d) c) := by
  induction l generalizing c with
  | nil => exact h
  | cons ch rest ih => exact ih _ (pcWF_pcAdd c ch d h)

theorem pcWF_pcOfChars (l : List Char) : pcWF (pcOfChars l) :=
  pcWF_foldl_pcAdd l 1 [] (by simp [pcWF])

theorem pcWF_pcSubChars (c : PyCounter) (l : List Char) (h : pcWF c) :
    pcWF (pcSubChars c l) :=
  pcWF_foldl_pcAdd l (-1) c h

theorem pcWF_fragLetters (s : String) : pcWF (fragLetters s) :=
  pcWF_pcSet _ _ _ (pcWF_pcOfChars _)

theorem pcWF_pcSubCounter (c other : PyCounter) (h : pcWF c) :
    pcWF (pcSubCounter c other) := by
  unfold pcSubCounter
  induction other generalizing c with
  | nil => exact h
  | cons p rest ih => exact ih _ (pcWF_pcAdd c p.1 _ h)

theorem pcGet_pcSubCounter (c other : PyCounter) (h : pcWF other) (k : Char) :
    pcGet (pcSubCounter c other) k = pcGet c k - pcGet other k := by
  unfold pcSubCounter
  induction other generalizing c with
  | nil => simp [pcGet]
  | cons p rest ih =>
    obtain ⟨pk, pv⟩ := p
    unfold pcWF at h
    simp only [List.map_cons, List.nodup_cons] at h
    obtain ⟨hp, hrest⟩ := h
    simp only [List.foldl_cons]
    rw [ih (pcAdd c pk (-pv)) hrest]
    by_cases hk : pk = k
    · subst hk
      have hz : pcGet rest pk = 0 := pcGet_eq_zero_of_not_key rest pk hp
      simp [pcGet, pcGet_pcAdd_self, hz]
      ring
    · rw [pcGet_pcAdd_of_ne _ _ _ _ (Ne.symm hk)]
      simp [pcGet, hk]

/-- With distinct keys, every stored entry holds exactly the value `pcGet`
reads back. -/
theorem pcVal_eq_pcGet (c : PyCounter) (h : pcWF c) :
    ∀ p ∈ c, p.2 = pcGet c p.1 := by
  induction c with
  | nil => intro p hp; cases hp
  | cons q rest ih =>
    obtain ⟨qk, qv⟩ := q
    unfold pcWF at h
    simp only [List.map_cons, List.nodup_cons] at h
    obtain ⟨hq, hrest⟩ := h
    intro p hp
    rcases List.mem_cons.mp hp with rfl | hp
    · simp [pcGet]
    · have hne : qk ≠ p.1 := by
        intro hcontra
        exact hq (hcontra ▸ List.mem_map_of_mem Prod.fst hp)
      simp only [pcGet, if_neg hne]
      exact ih hrest p hp

theorem pcAnyNeg_eq_false_iff (c : PyCounter) (h : pcWF c) :
    pcAnyNeg c = false ↔ ∀ k, 0 ≤ pcGet c k := by
  unfold pcAnyNeg
  simp only [List.any_eq_false, decide_eq_true_eq, not_lt]
  constructor
  · intro hall k
    by_cases hk : k ∈ c.map Prod.fst
    · exact hall _ (mem_of_key c k hk)
    · rw [pcGet_eq_zero_of_not_key c k hk]
  · intro hall p hp
    rw [pcVal_eq_pcGet c h p hp]
    exact hall p.1

theorem pcTotal_eq_zero (c : PyCounter) (h : pcWF c) (hz : ∀ k, pcGet c k = 0) :
    pcTotal c = 0 := by
  unfold pcTotal pcValues
  rw [List.sum_eq_zero]
  intro v hv
  obtain ⟨p, hp, rfl⟩ := List.mem_map.mp hv
  rw [pcVal_eq_pcGet c h p hp]
  exact hz p.1

theorem pcEqv_iff (a b : PyCounter) :
    pcEqv a b = true ↔ ∀ k, pcGet a k = pcGet b k := by
  unfold pcEqv
  simp only [List.all_eq_true, List.mem_append, decide_eq_true_eq]
  constructor
  · intro hall k
    by_cases hk : k ∈ a.map Prod.fst ∨ k ∈ b.map Prod.fst
    · exact hall k hk
    · push_neg at hk
      rw [pcGet_eq_zero_of_not_key a k hk.1, pcGet_eq_zero_of_not_key b k hk.2]
  · intro hall k _
    exact hall k

theorem pcLe_iff (a b : PyCounter) :
    pcLe a b = true ↔ ∀ k, pcGet a k ≤ pcGet b k := by
  unfold pcLe
  simp only [List.all_eq_true, List.mem_append, decide_eq_true_eq]
  constructor
  · intro hall k
    by_cases hk : k ∈ a.map Prod.fst ∨ k ∈ b.map Prod.fst
    · exact hall k hk
    · push_neg at hk
      rw [pcGet_eq_zero_of_not_key a k hk.1, pcGet_eq_zero_of_not_key b k hk.2]
  · intro hall k _
    exact hall k

theorem count_pcElements (c : PyCounter) (h : pcWF c) (k : Char) :
    (pcElements c).count k = (pcGet c k).toNat := by
  unfold pcElements
  induction c with
  | nil => simp [pcGet]
  | cons p rest ih =>
    obtain ⟨pk, pv⟩ := p
    unfold pcWF at h
    simp only [List.map_cons, List.nodup_cons] at h
    obtain ⟨hp, hrest⟩ := h
    simp only [List.flatMap_cons, List.count_append, List.count_replicate]
    rw [ih hrest]
    by_cases hk : pk = k
    · subst hk
      rw [pcGet_eq_zero_of_not_key rest pk hp]
      simp [pcGet]
    · simp [pcGet, hk, if_neg hk]

/-! ## String helpers -/

theorem strData_ne_nil (s : String) (h : s ≠ "") : s.data ≠ [] := by
  intro hd
  exact h (by cases s; simp_all)

theorem count_str_append (a b : String) (ch : Char) :
    (a ++ b).data.count ch = a.data.count ch + b.data.count ch := by
  rw [String.data_append, List.count_append]

theorem count_space_str (ch : Char) (h : ch ≠ ' ') : (" " : String).data.count ch = 0 := by
  simp [List.count_cons, h]

/-- Character counts of a `" "`-join, off the space character: the sum of the
words' counts. -/
theorem count_pyJoin (ws : List String) (ch : Char) (h : ch ≠ ' ') :
    (pyJoin " " ws).data.count ch = (ws.map (fun w => w.data.count ch)).sum := by
  induction ws with
  | nil => simp [pyJoin]
  | cons w rest ih =>
    cases rest with
    | nil => simp [pyJoin]
    | cons w2 rest2 =>
      have hunfold : pyJoin " " (w :: w2 :: rest2) = w ++ " " ++ pyJoin " " (w2 :: rest2) :=
        rfl
      rw [hunfold, count_str_append, count_str_append, count_space_str ch h, ih]
      simp only [List.map_cons, List.sum_cons]
      omega

/-! ## Validator characterizations -/

theorem soft_elim_anyNeg (f : Frag) (r : PyCounter) (V : List String) (c : Bool)
    (h : softValidateF f r V c = .ok true) : pcAnyNeg r = false := by
  unfold softValidateF at h
  by_cases hneg : pcAnyNeg r
  · simp [hneg, pure, Except.pure] at h
  · simpa using hneg

/-- With `vocabulary=None` the free `hard_validate` either rejects on the
letter check or raises `TypeError` at the membership test (nonempty word
list). -/
theorem hard_none_result (f : Frag) (r B : PyCounter) (c : Bool)
    (hw : f.words ≠ []) :
    hardValidateF f r B none c =
      if pcEqv f.letters B then Except.error PyErr.typeError else Except.ok false := by
  unfold hardValidateF
  by_cases he : pcEqv f.letters B
  · simp only [he, if_true]
    match hws : f.words with
    | [] => exact absurd hws hw
    | w :: rest => simp [hws, bind, Except.bind, pure, Except.pure]
  · simp [he, pure, Except.pure]

/-- What a successful `hard_validate(..., vocabulary=V, c1663)` certifies. -/
theorem hard_some_elim (f : Frag) (r B : PyCounter) (V : List String) (c : Bool)
    (h : hardValidateF f r B (some V) c = .ok true) :
    pcEqv f.letters B = true ∧ f.words.any (fun w => !(V.contains w)) = false ∧
      (c = true → f.words.head? = some "I" ∧ pySliceLast3 f.sentence = "w!!" ∧
        punctLoop f.words 0 = .ok true ∧ lengthRule f.words = true) := by
  unfold hardValidateF at h
  by_cases he : pcEqv f.letters B
  swap
  · simp only [Bool.not_eq_true] at he
    rw [he] at h
    simp [pure, Except.pure] at h
  rw [he] at h
  simp only [Bool.not_true, Bool.false_eq_true, if_false] at h
  refine ⟨he, ?_⟩
  cases hws : f.words with
  | nil =>
    rw [hws] at h
    refine ⟨by simp, ?_⟩
    intro hc
    subst hc
    simp [bind, Except.bind, pure, Except.pure] at h
  | cons w rest =>
    rw [hws] at h
    simp only [bind, Except.bind, pure, Except.pure] at h
    by_cases ha : (w :: rest).any (fun u => !(V.contains u))
    · rw [if_pos ha] at h
      cases h
    rw [Bool.not_eq_true] at ha
    rw [ha] at h
    simp only [Bool.false_eq_true, if_false] at h
    refine ⟨ha, ?_⟩
    intro hc
    subst hc
    simp only [Bool.not_true, Bool.false_eq_true, if_false, List.head?_cons] at h
    by_cases hw0 : w = "I"
    swap
    · rw [if_pos (by simpa using hw0 : w ≠ "I")] at h
      cases h
    subst hw0
    rw [if_neg (by simp)] at h
    by_cases hsl : pySliceLast3 f.sentence = "w!!"
    swap
    · rw [if_pos hsl] at h
      cases h
    rw [if_neg (by simpa using hsl)] at h
    cases hpl : punctLoop ("I" :: rest) 0 with
    | error e =>
      rw [hpl] at h
      cases h
    | ok pr =>
      rw [hpl] at h
      cases pr with
      | false => simp at h
      | true =>
        simp only [Bool.not_true, Bool.false_eq_true, if_false] at h
        by_cases hlr : lengthRule ("I" :: rest)
        swap
        · rw [Bool.not_eq_true] at hlr
          rw [hlr] at h
          cases h
        exact ⟨rfl, hsl, rfl, hlr⟩

/-- Successful soft validation in general (non-c1663) mode follows from its
three checks. -/
theorem soft_true_general (f : Frag) (r : PyCounter) (V : List String)
    (h1 : pcAnyNeg r = false)
    (h2 : f.words.any (fun w => !(V.contains w)) = false)
    (h3 : pcTotal r > 0 → anySpellable V r = true) :
    softValidateF f r V false = .ok true := by
  unfold softValidateF
  rw [h1, h2]
  simp only [Bool.false_eq_true, if_false]
  by_cases ht : pcTotal r > 0
  · rw [if_pos ht, h3 ht]
    simp [bind, Except.bind, pure, Except.pure]
  · rw [if_neg ht]
    simp [bind, Except.bind, pure, Except.pure]

/-- `softTailGT` passes outright when at most two letters remain. -/
theorem softTailGT_of_le_two (r : PyCounter) (V : List String)
    (h : pcTotal r ≤ 2) : softTailGT r V = .ok true := by
  have hA : ¬ pcTotal r > 3 := by omega
  have hB : ¬ pcTotal r > 2 := by omega
  simp [softTailGT, hA, hB, pure, Except.pure, bind, Except.bind]

/-- `softC1663Tail` passes outright when no letters remain. -/
theorem softC1663Tail_zero (r : PyCounter) (V : List String) (s : String)
    (h : pcTotal r = 0) : softC1663Tail r V s = .ok true := by
  have h2 : ¬ pcTotal r = 2 := by omega
  simp [softC1663Tail, h2, softTailGT_of_le_two r V (by omega), pure,
    Except.pure, bind, Except.bind]

/-- The c1663 checks pass when the first word is `"I"`, the punctuation loop
and length rule pass, and no letters remain. -/
theorem softC1663Checks_true_zero (ws : List String) (r : PyCounter)
    (V : List String) (s : String)
    (hw0 : ws.head? = some "I") (hpl : punctLoop ws 0 = .ok true)
    (hlr : lengthRule ws = true) (ht : pcTotal r = 0) :
    softC1663Checks ws r V s = .ok true := by
  unfold softC1663Checks
  rw [hw0, hpl, hlr]
  simp [bind, Except.bind, pure, Except.pure, softC1663Tail_zero r V s ht]

/-- Successful c1663 soft validation when no letters remain. -/
theorem soft_true_c1663_zero (f : Frag) (r : PyCounter) (V : List String)
    (h1 : pcAnyNeg r = false)
    (h2 : f.words.any (fun w => !(V.contains w)) = false)
    (ht : pcTotal r = 0)
    (hw0 : f.words.head? = some "I")
    (hpl : punctLoop f.words 0 = .ok true)
    (hlr : lengthRule f.words = true) :
    softValidateF f r V true = .ok true := by
  unfold softValidateF
  rw [h1, h2, ht]
  simp [bind, Except.bind, pure, Except.pure,
    softC1663Checks_true_zero f.words r V f.sentence hw0 hpl hlr ht]

/-- Claim C8: Hard validation implies soft validation: for every fragment (with
`remaining = B − letters(placed)` and the same non-empty vocabulary supplied
to both predicates, in either mode), if the fragment passes hard validation
then it also passes soft validation. -/
theorem hard_validate_implies_soft_validate
    (s bankStr : String) (b : Bool) (V : List String) (c : Bool)
    (hV : V ≠ [])
    (h : hardValidateF (mkFragment s b)
      (pcSubCounter (fragLetters bankStr) (fragLetters s)) (fragLetters bankStr)
      (some V) c = .ok true) :
    softValidateF (mkFragment s b)
      (pcSubCounter (fragLetters bankStr) (fragLetters s)) V c = .ok true := by
  obtain ⟨he, hany, hcpart⟩ := hard_some_elim _ _ _ _ _ h
  have hEq : ∀ k, pcGet (fragLetters s) k = pcGet (fragLetters bankStr) k :=
    (pcEqv_iff (fragLetters s) (fragLetters bankStr)).mp he
  have hWFr : pcWF (pcSubCounter (fragLetters bankStr) (fragLetters s)) :=
    pcWF_pcSubCounter _ _ (pcWF_fragLetters bankStr)
  have hget : ∀ k, pcGet (pcSubCounter (fragLetters bankStr) (fragLetters s)) k = 0 := by
    intro k
    rw [pcGet_pcSubCounter _ _ (pcWF_fragLetters s) k, hEq k]
    ring
  have h1 : pcAnyNeg (pcSubCounter (fragLetters bankStr) (fragLetters s)) = false :=
    (pcAnyNeg_eq_false_iff _ hWFr).mpr (fun k => le_of_eq (hget k).symm)
  have ht : pcTotal (pcSubCounter (fragLetters bankStr) (fragLetters s)) = 0 :=
    pcTotal_eq_zero _ hWFr hget
  cases c with
  | false =>
    exact soft_true_general _ _ _ h1 hany
      (fun hgt => absurd hgt (by rw [ht]; exact lt_irrefl 0))
  | true =>
    obtain ⟨hw0, hsl, hpl, hlr⟩ := hcpart rfl
    exact soft_true_c1663_zero _ _ _ h1 hany ht hw0 hpl hlr

/-- Witness for C8 at a concrete winning fragment in general mode. -/
theorem hard_validate_implies_soft_validate_witness :
    softValidateF (mkFragment "no" false)
      (pcSubCounter (fragLetters "no") (fragLetters "no")) ["no"] false = .ok true :=
  hard_validate_implies_soft_validate "no" "no" false ["no"] false (by decide) (by decide)

/-- The punctuation loop completes without raising whenever fewer than five
punctuation words remain to be checked. -/
theorem punctLoop_total (ws : List String) :
    ∀ pos : Nat, (ws.filter isPunctWord).length + pos ≤ 4 →
      ∃ b, punctLoop ws pos = .ok b := by
  induction ws with
  | nil => exact fun pos _ => ⟨true, rfl⟩
  | cons w rest ih =>
    intro pos h
    by_cases hp : isPunctWord w
    · rw [List.filter_cons_of_pos hp, List.length_cons] at h
      have hlen : pos < 4 := by omega
      obtain ⟨e, he⟩ : ∃ e, expectedPunctuation.get? pos = some e :=
        ⟨_, List.get?_eq_get (by simpa [expectedPunctuation] using hlen)⟩
      rw [List.get?_eq_getElem?] at he
      by_cases hne : e ≠ w
      · exact ⟨false, by simp [punctLoop, hp, he, hne]⟩
      · obtain ⟨b, hb⟩ := ih (pos + 1) (by omega)
        exact ⟨b, by simp [punctLoop, hp, he, hne, hb]⟩
    · rw [List.filter_cons_of_neg hp] at h
      obtain ⟨b, hb⟩ := ih pos h
      exact ⟨b, by simp [punctLoop, hp, hb]⟩

/-- The trailing-\`w\` vocabulary scan completes whenever the vocabulary has no
empty word. -/
theorem wEndLoop_total (V : List String) (r : PyCounter) (hV : ∀ u ∈ V, u ≠ "") :
    ∃ b, wEndLoop r V = .ok b := by
  induction V with
  | nil => exact ⟨false, rfl⟩
  | cons w rest ih =>
    by_cases hle : pcLe (fragLetters w) r
    · have hwne : w ≠ "" := hV w (by simp)
      obtain ⟨ch, hch⟩ : ∃ ch, w.data.getLast? = some ch := by
        cases hw2 : w.data with
        | nil => exact absurd hw2 (strData_ne_nil w hwne)
        | cons x xs => exact ⟨(x :: xs).getLast (by simp), List.getLast?_eq_getLast _ _⟩
      by_cases hcw : ch = 'w'
      · exact ⟨true, by simp [wEndLoop, hle, hch, hcw]⟩
      · obtain ⟨b, hb⟩ := ih (fun u hu => hV u (List.mem_cons_of_mem _ hu))
        exact ⟨b, by simp [wEndLoop, hle, hch, hcw, hb]⟩
    · obtain ⟨b, hb⟩ := ih (fun u hu => hV u (List.mem_cons_of_mem _ hu))
      exact ⟨b, by simp [wEndLoop, hle, hb]⟩

/-- `softTailGT` never raises when the vocabulary has no empty word. -/
theorem softTailGT_total (r : PyCounter) (V : List String)
    (hV : ∀ u ∈ V, u ≠ "") : ∃ b, softTailGT r V = .ok b := by
  obtain ⟨fb, hfb⟩ := wEndLoop_total V r hV
  unfold softTailGT
  by_cases h3 : pcTotal r > 3
  · by_cases hc : pcGet r 'w' = 0 ∨ pcGet r '!' < 2
    · exact ⟨false, by simp [h3, hc, pure, Except.pure, bind, Except.bind]⟩
    · by_cases h2 : pcTotal r > 2
      · cases fb with
        | false =>
          exact ⟨false, by simp [h3, hc, h2, hfb, pure, Except.pure, bind, Except.bind]⟩
        | true =>
          exact ⟨true, by simp [h3, hc, h2, hfb, pure, Except.pure, bind, Except.bind]⟩
      · exact ⟨true, by simp [h3, hc, h2, pure, Except.pure, bind, Except.bind]⟩
  · by_cases h2 : pcTotal r > 2
    · cases fb with
      | false =>
        exact ⟨false, by simp [h3, h2, hfb, pure, Except.pure, bind, Except.bind]⟩
      | true =>
        exact ⟨true, by simp [h3, h2, hfb, pure, Except.pure, bind, Except.bind]⟩
    · exact ⟨true, by simp [h3, h2, pure, Except.pure, bind, Except.bind]⟩

/-- `softC1663Tail` never raises when the sentence is nonempty and the
vocabulary has no empty word. -/
theorem softC1663Tail_total (r : PyCounter) (V : List String) (s : String)
    (hs : s ≠ "") (hV : ∀ u ∈ V, u ≠ "") : ∃ b, softC1663Tail r V s = .ok b := by
  obtain ⟨gb, hgb⟩ := softTailGT_total r V hV
  unfold softC1663Tail
  by_cases h2t : pcTotal r = 2
  · obtain ⟨lc, hlc⟩ : ∃ ch, s.data.getLast? = some ch := by
      cases hsd : s.data with
      | nil => exact absurd hsd (strData_ne_nil s hs)
      | cons x xs => exact ⟨(x :: xs).getLast (by simp), List.getLast?_eq_getLast _ _⟩
    have hpy : pyLast s = .ok lc := by unfold pyLast; rw [hlc]
    by_cases hcnd : lc ≠ 'w' ∨ pcGet r '!' ≠ 2
    · exact ⟨false, by simp [h2t, hpy, hcnd, bind, Except.bind, pure, Except.pure]⟩
    · exact ⟨gb, by simp [h2t, hpy, hcnd, hgb, bind, Except.bind, pure, Except.pure]⟩
  · exact ⟨gb, by simp [h2t, hgb, bind, Except.bind, pure, Except.pure]⟩

/-- The c1663 checks never raise for a nonempty word list with at most four
punctuation words, a nonempty sentence, and a vocabulary without `""`. -/
theorem softC1663Checks_total (ws : List String) (r : PyCounter)
    (V : List String) (s : String)
    (hw : ws ≠ []) (hs : s ≠ "") (hV : ∀ u ∈ V, u ≠ "")
    (hp : (ws.filter isPunctWord).length ≤ 4) :
    ∃ b, softC1663Checks ws r V s = .ok b := by
  obtain ⟨w0, ws', hws⟩ : ∃ w0 ws', ws = w0 :: ws' := by
    cases hfw : ws with
    | nil => exact absurd hfw hw
    | cons a l => exact ⟨a, l, rfl⟩
  subst hws
  obtain ⟨pb, hpb⟩ := punctLoop_total (w0 :: ws') 0 (by omega)
  obtain ⟨tb, htb⟩ := softC1663Tail_total r V s hs hV
  unfold softC1663Checks
  by_cases hw0 : w0 = "I"
  swap
  · exact ⟨false, by simp [bind, Except.bind, pure, Except.pure, hw0]⟩
  subst hw0
  cases pb with
  | false => exact ⟨false, by simp [bind, Except.bind, pure, Except.pure, hpb]⟩
  | true =>
    rcases Bool.eq_false_or_eq_true (lengthRule ("I" :: ws')) with hlr | hlr
    · exact ⟨tb, by simp [bind, Except.bind, pure, Except.pure, hpb, hlr, htb]⟩
    · exact ⟨false, by simp [bind, Except.bind, pure, Except.pure, hpb, hlr]⟩

/-- Claim C9 (amended): in c1663 mode the validators return a boolean — rather than
raising — for every fragment with a nonempty word list and sentence, a
vocabulary without the empty word, and at most four single-character
punctuation words.  (A fifth punctuation word after a matching `: , ! !`
makes the punctuation loop raise `IndexError`; see the counterexample.) -/
theorem validators_total_of_few_puncts (f : Frag) (r B : PyCounter) (V : List String)
    (hw : f.words ≠ []) (hs : f.sentence ≠ "") (hV : ∀ u ∈ V, u ≠ "")
    (hp : (f.words.filter isPunctWord).length ≤ 4) :
    (∃ b1, softValidateF f r V true = .ok b1) ∧
      (∃ b2, hardValidateF f r B (some V) true = .ok b2) := by
  obtain ⟨w0, ws', hws⟩ : ∃ w0 ws', f.words = w0 :: ws' := by
    cases hfw : f.words with
    | nil => exact absurd hfw hw
    | cons a l => exact ⟨a, l, rfl⟩
  obtain ⟨pb, hpb⟩ := punctLoop_total f.words 0 (by omega)
  obtain ⟨cb, hcb⟩ := softC1663Checks_total f.words r V f.sentence hw hs hV hp
  constructor
  · -- soft_validate
    by_cases h1 : pcAnyNeg r
    · refine ⟨false, ?_⟩
      unfold softValidateF
      rw [h1]
      simp [bind, Except.bind, pure, Except.pure]
    rw [Bool.not_eq_true] at h1
    by_cases h2 : f.words.any (fun u => !(V.contains u))
    · refine ⟨false, ?_⟩
      unfold softValidateF
      rw [h1, h2]
      simp [bind, Except.bind, pure, Except.pure]
    rw [Bool.not_eq_true] at h2
    by_cases ht0 : pcTotal r > 0
    · by_cases hsp : anySpellable V r
      · refine ⟨cb, ?_⟩
        unfold softValidateF
        rw [h1, h2, hsp]
        simp only [Bool.false_eq_true, if_false, bind, Except.bind, pure, Except.pure,
          Bool.not_true, Bool.not_false, if_true]
        rw [if_pos ht0]
        simp [bind, Except.bind, pure, Except.pure, hcb]
      · rw [Bool.not_eq_true] at hsp
        refine ⟨false, ?_⟩
        unfold softValidateF
        rw [h1, h2, hsp]
        simp only [Bool.false_eq_true, if_false, bind, Except.bind, pure, Except.pure,
          Bool.not_true, Bool.not_false, if_true]
        rw [if_pos ht0]
    · refine ⟨cb, ?_⟩
      unfold softValidateF
      rw [h1, h2]
      simp only [Bool.false_eq_true, if_false, bind, Except.bind, pure, Except.pure]
      rw [if_neg ht0]
      simp [bind, Except.bind, pure, Except.pure, hcb]
  · -- hard_validate
    have hpb2 := hpb
    rw [hws] at hpb2
    by_cases he : pcEqv f.letters B
    swap
    · rw [Bool.not_eq_true] at he
      refine ⟨false, ?_⟩
      unfold hardValidateF
      rw [he]
      simp [bind, Except.bind, pure, Except.pure]
    by_cases h2 : (w0 :: ws').any (fun u => !(V.contains u))
    · refine ⟨false, ?_⟩
      unfold hardValidateF
      rw [he, hws]
      simp only [bind, Except.bind, pure, Except.pure, Bool.not_true,
        Bool.false_eq_true, if_false]
      rw [h2]
      simp [bind, Except.bind, pure, Except.pure]
    rw [Bool.not_eq_true] at h2
    by_cases hw0 : w0 = "I"
    swap
    · refine ⟨false, ?_⟩
      unfold hardValidateF
      rw [he, hws]
      simp only [bind, Except.bind, pure, Except.pure, Bool.not_true,
        Bool.false_eq_true, if_false]
      rw [h2]
      simp [bind, Except.bind, pure, Except.pure, List.head?_cons, hw0]
    subst hw0
    by_cases hsl : pySliceLast3 f.sentence = "w!!"
    swap
    · refine ⟨false, ?_⟩
      unfold hardValidateF
      rw [he, hws]
      simp only [bind, Except.bind, pure, Except.pure, Bool.not_true,
        Bool.false_eq_true, if_false]
      rw [h2]
      simp [bind, Except.bind, pure, Except.pure, List.head?_cons, hsl]
    cases pb with
    | false =>
      refine ⟨false, ?_⟩
      unfold hardValidateF
      rw [he, hws]
      simp only [bind, Except.bind, pure, Except.pure, Bool.not_true,
        Bool.false_eq_true, if_false]
      rw [h2, hpb2]
      simp [bind, Except.bind, pure, Except.pure, List.head?_cons, hsl]
    | true =>
      refine ⟨lengthRule ("I" :: ws'), ?_⟩
      unfold hardValidateF
      rw [he, hws]
      simp only [bind, Except.bind, pure, Except.pure, Bool.not_true,
        Bool.false_eq_true, if_false]
      rw [h2, hpb2]
      simp only [bind, Except.bind, pure, Except.pure, List.head?_cons, hsl]
      rcases Bool.eq_false_or_eq_true (lengthRule ("I" :: ws')) with hh | hh <;>
        simp [hh, hsl]

/-- Claim C9 (counterexample): a tokenized candidate with five single-character
punctuation words whose first four are `: , ! !` (all words in the
vocabulary, letters exactly covering the bank) makes `soft_validate` raise
`IndexError` from `expected_punctuation[4]` instead of returning a boolean. -/
theorem soft_validate_raises_on_fifth_punct :
    softValidateF (mkFragment "I : , ! ! !" true)
      (pcSubCounter (fragLetters "I:,!!!") (fragLetters "I : , ! ! !"))
      ["I", ":", ",", "!"] true = .error .indexError := by
  decide

/-- Witness for the amended C9 at a four-punctuation candidate. -/
theorem validators_total_of_few_puncts_witness :
    (∃ b1, softValidateF (mkFragment "I : , ! !" true) []
        ["I", ":", ",", "!"] true = .ok b1) ∧
      (∃ b2, hardValidateF (mkFragment "I : , ! !" true) [] []
        (some ["I", ":", ",", "!"]) true = .ok b2) :=
  validators_total_of_few_puncts (mkFragment "I : , ! !" true) [] []
    ["I", ":", ",", "!"] (by decide) (by decide) (by decide) (by decide)

/-- Monotonicity of soft validation in general (non-c1663) mode: if the
prefix sentence and the appended word are vocabulary members and the
extension passes soft validation against `B − letters(s + " " + w)`, then
the prefix passes against `B − letters(s)`. -/
theorem soft_monotone_general_aux (s w bankStr : String) (V : List String)
    (hwV : V.contains w = true)
    (hsV : V.contains s = true)
    (h : softValidateF (mkFragment (s ++ " " ++ w) false)
      (pcSubCounter (fragLetters bankStr) (fragLetters (s ++ " " ++ w)))
      V false = .ok true) :
    softValidateF (mkFragment s false)
      (pcSubCounter (fragLetters bankStr) (fragLetters s)) V false = .ok true := by
  have hWFB := pcWF_fragLetters bankStr
  have hWFr2 : pcWF (pcSubCounter (fragLetters bankStr) (fragLetters (s ++ " " ++ w))) :=
    pcWF_pcSubCounter _ _ hWFB
  have hWFr : pcWF (pcSubCounter (fragLetters bankStr) (fragLetters s)) :=
    pcWF_pcSubCounter _ _ hWFB
  have hpos2 : ∀ k, 0 ≤ pcGet (pcSubCounter (fragLetters bankStr)
      (fragLetters (s ++ " " ++ w))) k :=
    (pcAnyNeg_eq_false_iff _ hWFr2).mp (soft_elim_anyNeg _ _ _ _ h)
  have hsplit : ∀ k, k ≠ ' ' →
      pcGet (fragLetters (s ++ " " ++ w)) k =
        pcGet (fragLetters s) k + (w.data.count k : Int) := by
    intro k hk
    rw [pcGet_fragLetters, pcGet_fragLetters]
    have hc : (s ++ " " ++ w).data.count k = s.data.count k + w.data.count k := by
      rw [count_str_append, count_str_append, count_space_str k hk]
      omega
    simp only [hk, if_false]
    exact_mod_cast congrArg Nat.cast hc
  have hget2 : ∀ k, pcGet (pcSubCounter (fragLetters bankStr)
      (fragLetters (s ++ " " ++ w))) k =
        pcGet (fragLetters bankStr) k - pcGet (fragLetters (s ++ " " ++ w)) k :=
    pcGet_pcSubCounter _ _ (pcWF_fragLetters _)
  have hget : ∀ k, pcGet (pcSubCounter (fragLetters bankStr) (fragLetters s)) k =
      pcGet (fragLetters bankStr) k - pcGet (fragLetters s) k :=
    pcGet_pcSubCounter _ _ (pcWF_fragLetters _)
  have hsp : ∀ k, k = ' ' ∨ k ≠ ' ' := fun k => em _
  have hposr : ∀ k, 0 ≤ pcGet (pcSubCounter (fragLetters bankStr) (fragLetters s)) k := by
    intro k
    rcases hsp k with hk | hk
    · subst hk
      have h1s := hpos2 ' '
      rw [hget2] at h1s
      have hz1 : pcGet (fragLetters (s ++ " " ++ w)) ' ' = 0 := by
        rw [pcGet_fragLetters]; simp
      have hz2 : pcGet (fragLetters s) ' ' = 0 := by
        rw [pcGet_fragLetters]; simp
      rw [hget, hz2]
      rw [hz1] at h1s
      omega
    · have := hpos2 k
      rw [hget2, hsplit k hk] at this
      rw [hget]
      have hwc : (0 : Int) ≤ (w.data.count k : Int) := by positivity
      omega
  refine soft_true_general _ _ _ ((pcAnyNeg_eq_false_iff _ hWFr).mpr hposr) ?_ ?_
  · simpa [mkFragment] using hsV
  · intro _
    refine List.any_eq_true.mpr ⟨w, by simpa using hwV, ?_⟩
    refine (pcLe_iff _ _).mpr ?_
    intro k
    rcases hsp k with hk | hk
    · subst hk
      rw [pcGet_fragLetters]
      simpa using hposr ' '
    · have := hpos2 k
      rw [hget2, hsplit k hk] at this
      rw [pcGet_fragLetters, hget]
      simp only [hk, if_false]
      omega

/-- Claim C7 (counterexample): with vocabulary `{"a b"}` and bank `ab`, the
extension `Fragment("a b")` passes soft validation while its prefix
`Fragment("a")` fails it — the word-membership check sees the whole sentence
as one word, so the suffix can pass while the prefix cannot. -/
theorem soft_validate_not_monotone :
    softValidateF (mkFragment "a b" false)
        (pcSubCounter (fragLetters "ab") (fragLetters "a b")) ["a b"] false = .ok true ∧
      softValidateF (mkFragment "a" false)
        (pcSubCounter (fragLetters "ab") (fragLetters "a")) ["a b"] false = .ok false := by
  decide

/-- Successful c1663 soft validation passes the c1663-only checks. -/
theorem soft_c1663_true_elim (f : Frag) (r : PyCounter) (V : List String)
    (h : softValidateF f r V true = .ok true) :
    softC1663Checks f.words r V f.sentence = .ok true := by
  unfold softValidateF at h
  by_cases h1 : pcAnyNeg r
  · simp [h1, pure, Except.pure] at h
  · simp only [Bool.not_eq_true] at h1
    rw [h1] at h
    simp only [Bool.false_eq_true, if_false] at h
    by_cases h2 : f.words.any (fun w => !(V.contains w))
    · rw [h2] at h
      simp [pure, Except.pure, bind, Except.bind] at h
    · simp only [Bool.not_eq_true] at h2
      rw [h2] at h
      simp only [Bool.false_eq_true, if_false] at h
      by_cases h3 : pcTotal r > 0
      · rw [if_pos h3] at h
        by_cases h4 : anySpellable V r
        · rw [h4] at h
          simp only [Bool.not_true, Bool.false_eq_true, if_false] at h
          simpa [bind, Except.bind, pure, Except.pure] using h
        · simp only [Bool.not_eq_true] at h4
          rw [h4] at h
          simp [pure, Except.pure, bind, Except.bind] at h
      · rw [if_neg h3] at h
        simpa [bind, Except.bind, pure, Except.pure] using h

/-- The c1663 checks accept only candidates whose first word is `"I"`. -/
theorem softC1663Checks_true_head (ws : List String) (r : PyCounter)
    (V : List String) (s : String)
    (h : softC1663Checks ws r V s = .ok true) : ws.head? = some "I" := by
  unfold softC1663Checks at h
  cases hws : ws.head? with
  | none =>
    rw [hws] at h
    simp [bind, Except.bind] at h
  | some w0 =>
    rw [hws] at h
    simp only [bind, Except.bind, pure, Except.pure] at h
    by_cases hw0 : w0 = "I"
    · rw [hw0]
    · rw [if_pos (by simpa using hw0 : w0 ≠ "I")] at h
      cases h

/-- In c1663 mode no untokenized extension `s ++ " " ++ w` can pass soft
validation at all: its single word contains a space, so it never equals the
required first word `"I"`. -/
theorem soft_c1663_ext_never_passes (s w : String) (r : PyCounter) (V : List String)
    (h : softValidateF (mkFragment (s ++ " " ++ w) false) r V true = .ok true) :
    False := by
  have hc := soft_c1663_true_elim _ _ _ h
  have hh := softC1663Checks_true_head _ _ _ _ hc
  have hwords : (mkFragment (s ++ " " ++ w) false).words = [s ++ " " ++ w] := rfl
  rw [hwords] at hh
  simp only [List.head?_cons, Option.some.injEq] at hh
  have hcount := congrArg (fun t : String => t.data.count ' ') hh
  simp only [count_str_append] at hcount
  have h1 : (" " : String).data.count ' ' = 1 := by decide
  have h2 : ("I" : String).data.count ' ' = 0 := by decide
  rw [h1, h2] at hcount
  omega

/-- Claim C7 (amended): soft validation is monotone under expansion in both
modes, provided the prefix sentence and the appended word are vocabulary
members: if `Fragment(s + " " + w)` passes soft validation against
`B − letters(s + " " + w)` (general or c1663 mode), then `Fragment(s)`
passes against `B − letters(s)` in the same mode.  In c1663 mode the
implication holds because no untokenized extension passes soft validation:
its single word contains a space and never equals the required `"I"`. -/
theorem soft_validate_monotone (s w bankStr : String) (V : List String) (c : Bool)
    (hwV : V.contains w = true)
    (hsV : V.contains s = true)
    (h : softValidateF (mkFragment (s ++ " " ++ w) false)
      (pcSubCounter (fragLetters bankStr) (fragLetters (s ++ " " ++ w)))
      V c = .ok true) :
    softValidateF (mkFragment s false)
      (pcSubCounter (fragLetters bankStr) (fragLetters s)) V c = .ok true := by
  cases c with
  | false => exact soft_monotone_general_aux s w bankStr V hwV hsV h
  | true => exact absurd h (fun hc => soft_c1663_ext_never_passes s w _ V hc)

/-- Witness for the amended C7 at a concrete prefix/extension pair. -/
theorem soft_validate_monotone_witness :
    softValidateF (mkFragment "a" false)
      (pcSubCounter (fragLetters "ab") (fragLetters "a"))
      ["a", "b", "a b"] false = .ok true :=
  soft_validate_monotone "a" "b" "ab" ["a", "b", "a b"] false
    (by decide) (by decide) (by decide)

/-! ## Selection weighting (C6) -/

theorem foldl_min_le (l : List ℚ) : ∀ a : ℚ, l.foldl min a ≤ a ∧ ∀ x ∈ l, l.foldl min a ≤ x := by
  induction l with
  | nil => exact fun a => ⟨le_refl a, by simp⟩
  | cons b rest ih =>
    intro a
    obtain ⟨h1, h2⟩ := ih (min a b)
    refine ⟨le_trans h1 (min_le_left a b), ?_⟩
    intro x hx
    rcases List.mem_cons.mp hx with rfl | hx
    · exact le_trans h1 (min_le_right a x)
    · exact h2 x hx

/-- `pyMinQ` really is a lower bound of a nonempty list. -/
theorem pyMinQ_le (l : List ℚ) (x : ℚ) (hx : x ∈ l) : pyMinQ l ≤ x := by
  cases l with
  | nil => cases hx
  | cons a rest =>
    unfold pyMinQ
    rcases List.mem_cons.mp hx with rfl | hx
    · exact (foldl_min_le rest x).1
    · exact (foldl_min_le rest a).2 x hx

theorem mapM_rowScoreQ_ok (rows : List Row)
    (h : ∀ r ∈ rows, ∃ q, r.score = some (PyFloat.fin q)) :
    ∃ qs, mapValsE rowScoreQ rows = .ok qs ∧ qs.length = rows.length := by
  induction rows with
  | nil => exact ⟨[], rfl, rfl⟩
  | cons r rest ih =>
    obtain ⟨q, hq⟩ := h r (by simp)
    obtain ⟨qs, hqs, hlen⟩ := ih (fun r' hr' => h r' (List.mem_cons_of_mem _ hr'))
    refine ⟨q :: qs, ?_, by simp [hlen]⟩
    unfold mapValsE
    simp [rowScoreQ, hq, hqs, bind, Except.bind, pure, Except.pure]

/-- Membership in the `words` list built by `selection`: either a stored row
or the unexplored default. -/
theorem mem_selectionRows (validVocab : List String) (explored : List Row)
    (placedLetters : String) (r : Row)
    (hr : r ∈ selectionRows validVocab explored placedLetters) :
    r ∈ explored ∨ ∃ s, r = unexploredRow s := by
  unfold selectionRows at hr
  obtain ⟨hmem, _⟩ := List.mem_filter.mp hr
  obtain ⟨word, _, hw⟩ := List.mem_map.mp hmem
  unfold childRow at hw
  cases hfind : explored.find? (fun row => row.placed = placedLetters ++ " " ++ word) with
  | some r0 =>
    rw [hfind] at hw
    exact Or.inl (hw ▸ List.mem_of_find?_eq_some hfind)
  | none =>
    rw [hfind] at hw
    exact Or.inr ⟨_, hw.symm⟩

/-- Claim C6 (amended): the weights `selection` passes to the weighted random
choice are each status-0 child's `score` column (the fourth field —
`EXPLORATION_SCORE` for a child not yet in the store), shifted by
`abs(min) + 1`; when those scores are finite floats every weight is strictly
positive. -/
theorem selection_weights_positive (validVocab : List String) (explored : List Row)
    (placedLetters : String)
    (hfin : ∀ r ∈ explored, ∃ q, r.score = some (PyFloat.fin q))
    (hne : selectionRows validVocab explored placedLetters ≠ []) :
    ∃ ws, selectionWeightsE (selectionRows validVocab explored placedLetters) = .ok ws ∧
      ∀ x ∈ ws, 0 < x := by
  have hallfin : ∀ r ∈ selectionRows validVocab explored placedLetters,
      ∃ q, r.score = some (PyFloat.fin q) := by
    intro r hr
    rcases mem_selectionRows validVocab explored placedLetters r hr with hmem | ⟨s, rfl⟩
    · exact hfin r hmem
    · exact ⟨EXPLORATION_SCORE, rfl⟩
  obtain ⟨qs, hqs, hlen⟩ := mapM_rowScoreQ_ok _ hallfin
  cases hqsl : qs with
  | nil =>
    exfalso
    apply hne
    rw [hqsl] at hlen
    cases hrows : selectionRows validVocab explored placedLetters with
    | nil => rfl
    | cons a l => rw [hrows] at hlen; simp at hlen
  | cons q0 qrest =>
    refine ⟨(q0 :: qrest).map (fun q => q + (|pyMinQ (q0 :: qrest)| + 1)), ?_, ?_⟩
    · unfold selectionWeightsE
      rw [hqs, hqsl]
      simp [bind, Except.bind, pure, Except.pure]
    · intro x hx
      obtain ⟨q, hq, rfl⟩ := List.mem_map.mp hx
      have hmin : pyMinQ (q0 :: qrest) ≤ q := pyMinQ_le _ q hq
      have habs : 0 ≤ pyMinQ (q0 :: qrest) + |pyMinQ (q0 :: qrest)| := by
        have := neg_abs_le (pyMinQ (q0 :: qrest))
        linarith
      linarith

/-- Claim C6 (counterexample): with two explored status-0 children whose `score`
and `mean_score` columns differ, the code's weights (score-based: `[1, 8]`)
are not the spec's mean-score-based weights (`[5, 1]`). -/
theorem selection_weights_not_mean_based :
    selectionWeightsE (selectionRows ["a", "b"]
        [⟨"x a", "", "x", some (PyFloat.fin (-10)), none, some (PyFloat.fin (-5)), 0⟩,
         ⟨"x b", "", "x", some (PyFloat.fin (-3)), none, some (PyFloat.fin (-9)), 0⟩]
        "x") = .ok [1, 8] ∧
      specSelectionWeights (selectionRows ["a", "b"]
        [⟨"x a", "", "x", some (PyFloat.fin (-10)), none, some (PyFloat.fin (-5)), 0⟩,
         ⟨"x b", "", "x", some (PyFloat.fin (-3)), none, some (PyFloat.fin (-9)), 0⟩]
        "x") = .ok [5, 1] := by
  with_unfolding_all decide

/-- Witness for the amended C6 at the same concrete store contents. -/
theorem selection_weights_positive_witness :
    ∃ ws, selectionWeightsE (selectionRows ["a", "b"]
        [⟨"x a", "", "x", some (PyFloat.fin (-10)), none, some (PyFloat.fin (-5)), 0⟩,
         ⟨"x b", "", "x", some (PyFloat.fin (-3)), none, some (PyFloat.fin (-9)), 0⟩]
        "x") = .ok ws ∧ ∀ x ∈ ws, 0 < x :=
  selection_weights_positive ["a", "b"]
    [⟨"x a", "", "x", some (PyFloat.fin (-10)), none, some (PyFloat.fin (-5)), 0⟩,
     ⟨"x b", "", "x", some (PyFloat.fin (-3)), none, some (PyFloat.fin (-9)), 0⟩]
    "x"
    (by
      intro r hr
      simp only [List.mem_cons, List.not_mem_nil, or_false] at hr
      rcases hr with rfl | rfl
      · exact ⟨-10, rfl⟩
      · exact ⟨-3, rfl⟩)
    (by decide)

/-! ## `sample` (C2, modelled from the spec) -/

/-- Claim C2: `sample(prefix)` returns only status-OK rows whose `placed` equals or
is rooted at the prefix, and returns none exactly when no such row exists. -/
theorem sampleModel_sound (rows : List Row) (pfx : String) (k : Nat) :
    (∀ r, sampleModel rows pfx k = some r →
      r.status = 0 ∧ rootedAt pfx r.placed = true) ∧
      (sampleModel rows pfx k = none ↔
        ∀ r ∈ rows, ¬ (r.status = 0 ∧ rootedAt pfx r.placed = true)) := by
  unfold sampleModel
  by_cases hempty : (rows.filter (fun r => r.status = 0 && rootedAt pfx r.placed)).isEmpty
  · have hnil : rows.filter (fun r => r.status = 0 && rootedAt pfx r.placed) = [] := by
      simpa using hempty
    constructor
    · intro r hr
      rw [if_pos hempty] at hr
      cases hr
    · rw [if_pos hempty]
      constructor
      · intro _ r hr hcond
        have hmem : r ∈ rows.filter (fun r => r.status = 0 && rootedAt pfx r.placed) :=
          List.mem_filter.mpr ⟨hr, by simp [hcond.1, hcond.2]⟩
        rw [hnil] at hmem
        cases hmem
      · intro _
        rfl
  · have hne : rows.filter (fun r => r.status = 0 && rootedAt pfx r.placed) ≠ [] := by
      simpa using hempty
    have hlt : k % (rows.filter (fun r => r.status = 0 && rootedAt pfx r.placed)).length <
        (rows.filter (fun r => r.status = 0 && rootedAt pfx r.placed)).length :=
      Nat.mod_lt _ (List.length_pos.mpr hne)
    constructor
    · intro r hr
      rw [if_neg hempty] at hr
      have hmem := List.get?_mem hr
      have := (List.mem_filter.mp hmem).2
      simp only [Bool.and_eq_true, decide_eq_true_eq] at this
      exact this
    · constructor
      · intro hnone
        exfalso
        rw [if_neg hempty, List.get?_eq_get hlt] at hnone
        cases hnone
      · intro hall
        exfalso
        obtain ⟨e, he⟩ := List.exists_mem_of_ne_nil _ hne
        obtain ⟨hin, hcond⟩ := List.mem_filter.mp he
        simp only [Bool.and_eq_true, decide_eq_true_eq] at hcond
        exact hall e hin hcond

/-- Witness for C2: the theorem applied at a one-row store. -/
theorem sampleModel_sound_witness :
    (⟨"no", "", "", none, none, none, 0⟩ : Row).status = 0 ∧
      rootedAt "no" (⟨"no", "", "", none, none, none, 0⟩ : Row).placed = true :=
  (sampleModel_sound [⟨"no", "", "", none, none, none, 0⟩] "no" 0).1
    ⟨"no", "", "", none, none, none, 0⟩ (by with_unfolding_all decide)

/-! ## Multiset conservation (C1) -/

/-- Invariant 1 of the spec: the letters of `placed` and of `remaining`
together are exactly the letter bank. -/
def conservesBank (bankStr : String) (e : Entry) : Prop :=
  ∀ ch, pcGet (fragLetters e.placed) ch + pcGet (fragLetters e.remaining) ch =
    pcGet (fragLetters bankStr) ch

/-- A row `(sentence, "".join((bank - sentence).elements()))` conserves the
bank whenever the sentence's letters fit in the bank. -/
theorem conserve_of_counts (bankStr sentence : String)
    (h : ∀ ch, ch ≠ ' ' → (sentence.data.count ch : Int) ≤ pcGet (fragLetters bankStr) ch) :
    ∀ ch, pcGet (fragLetters sentence) ch +
      pcGet (fragLetters
        (String.mk (pcElements (pcSubChars (fragLetters bankStr) sentence.data)))) ch =
      pcGet (fragLetters bankStr) ch := by
  intro ch
  by_cases hch : ch = ' '
  · subst hch
    rw [pcGet_fragLetters, pcGet_fragLetters, pcGet_fragLetters]
    simp
  · have hWF : pcWF (pcSubChars (fragLetters bankStr) sentence.data) :=
      pcWF_pcSubChars _ _ (pcWF_fragLetters bankStr)
    have hcount : (String.mk
        (pcElements (pcSubChars (fragLetters bankStr) sentence.data))).data.count ch =
        (pcGet (pcSubChars (fragLetters bankStr) sentence.data) ch).toNat :=
      count_pcElements _ hWF ch
    rw [pcGet_fragLetters, pcGet_fragLetters, pcGet_fragLetters]
    simp only [hch, if_false]
    rw [hcount, pcGet_pcSubChars, pcGet_fragLetters]
    simp only [hch, if_false]
    have hb := h ch hch
    rw [pcGet_fragLetters] at hb
    simp only [hch, if_false] at hb
    omega

/-- Every entry `backpropogation`'s loop emits (when it does not raise)
conserves the letter bank, provided the leaf's letters fit in the bank. -/
theorem backpropGo_conserves (gm : List ℚ → ℚ) (node bankStr lastWord : String)
    (c : Bool) :
    ∀ (sw : List (String × ℚ)) (sentence0 : String) (scores0 : List ℚ)
      (es : List Entry),
      (∀ ch, ch ≠ ' ' → (sentence0.data.count ch : Int) +
        (sw.map (fun p => (p.1.data.count ch : Int))).sum ≤
          pcGet (fragLetters bankStr) ch) →
      backpropGo gm node (fragLetters bankStr) lastWord c sw sentence0 scores0 = .ok es →
      ∀ e ∈ es, conservesBank bankStr e := by
  intro sw
  induction sw with
  | nil =>
    intro sentence0 scores0 es _ hok e he
    unfold backpropGo at hok
    cases hok
    cases he
  | cons p rest ih =>
    obtain ⟨w, q⟩ := p
    intro sentence0 scores0 es H hok e he
    unfold backpropGo at hok
    set sentence := if sentence0 = "" then sentence0 ++ w else sentence0 ++ " " ++ w
      with hsent
    have hsc : ∀ ch, ch ≠ ' ' →
        (sentence.data.count ch : Int) = sentence0.data.count ch + w.data.count ch := by
      intro ch hch
      rw [hsent]
      by_cases h0 : sentence0 = ""
      · simp [h0, count_str_append]
      · simp [h0, count_str_append, List.count_cons, Ne.symm hch,
          String.data_append]
    have hrest_nonneg : ∀ ch, (0 : Int) ≤ (rest.map (fun p => (p.1.data.count ch : Int))).sum := by
      intro ch
      apply List.sum_nonneg
      intro x hx
      obtain ⟨p2, _, rfl⟩ := List.mem_map.mp hx
      positivity
    have Hnew : ∀ ch, ch ≠ ' ' → (sentence.data.count ch : Int) +
        (rest.map (fun p => (p.1.data.count ch : Int))).sum ≤
          pcGet (fragLetters bankStr) ch := by
      intro ch hch
      have hH := H ch hch
      simp only [List.map_cons, List.sum_cons] at hH
      rw [hsc ch hch]
      omega
    have hsent_le : ∀ ch, ch ≠ ' ' →
        (sentence.data.count ch : Int) ≤ pcGet (fragLetters bankStr) ch := by
      intro ch hch
      have := Hnew ch hch
      have := hrest_nonneg ch
      omega
    by_cases hskip : node.startsWith sentence
    · simp only [hskip, if_true] at hok
      exact ih sentence (scores0 ++ [q]) es Hnew hok e he
    · rw [Bool.not_eq_true] at hskip
      simp only [hskip, Bool.false_eq_true, if_false] at hok
      cases hhv : hardValidateF (mkFragment sentence false)
          (pcSubChars (fragLetters bankStr) sentence.data) (fragLetters bankStr)
          none c with
      | error err =>
        rw [hhv] at hok
        simp only [bind, Except.bind] at hok
        cases hok
      | ok hv =>
        have hres := hard_none_result (mkFragment sentence false)
          (pcSubChars (fragLetters bankStr) sentence.data) (fragLetters bankStr) c
          (by simp [mkFragment])
        rw [hhv] at hres
        have hvfalse : hv = false := by
          by_cases heqv : pcEqv (mkFragment sentence false).letters (fragLetters bankStr)
          · rw [if_pos heqv] at hres
            cases hres
          · rw [if_neg heqv] at hres
            cases hres
            rfl
        subst hvfalse
        rw [hhv] at hok
        simp only [bind, Except.bind, Bool.false_eq_true, if_false] at hok
        by_cases hlw : w = lastWord
        · rw [if_pos hlw] at hok
          simp [pure, Except.pure, bind, Except.bind] at hok
          cases hok
          cases he with
          | head =>
            intro ch
            exact conserve_of_counts bankStr sentence hsent_le ch
          | tail _ htail => cases htail
        · rw [if_neg hlw] at hok
          simp [pure, Except.pure, bind, Except.bind] at hok
          cases hrec : backpropGo gm node (fragLetters bankStr) lastWord c rest
              sentence (scores0 ++ [q]) with
          | error err =>
            rw [hrec] at hok
            simp only [bind, Except.bind] at hok
            cases hok
          | ok restEs =>
            rw [hrec] at hok
            simp only [bind, Except.bind, pure, Except.pure] at hok
            cases hok
            cases he with
            | head =>
              intro ch
              exact conserve_of_counts bankStr sentence hsent_le ch
            | tail _ htail => exact ih sentence (scores0 ++ [q]) restEs Hnew hrec e htail

/-- Pointwise form of the leaf-letters-fit-the-bank hypothesis. -/
theorem counts_of_pcLe (bankStr : String) (ws : List String)
    (H : pcLe (fragLetters (pyJoin " " ws)) (fragLetters bankStr) = true) :
    ∀ ch, ch ≠ ' ' →
      ((ws.map (fun w => (w.data.count ch : Int))).sum) ≤ pcGet (fragLetters bankStr) ch := by
  intro ch hch
  have h := (pcLe_iff _ _).mp H ch
  rw [pcGet_fragLetters] at h
  simp only [hch, if_false] at h
  rw [count_pyJoin ws ch hch] at h
  have hcast : (Nat.cast ((ws.map (fun w => w.data.count ch)).sum) : Int) =
      (ws.map (fun w => (w.data.count ch : Int))).sum := by
    rw [Nat.cast_list_sum, List.map_map]
    rfl
  rw [hcast] at h
  exact h

/-- Every entry `backpropogation` returns conserves the letter bank. -/
theorem backpropE_conserves (gm : List ℚ → ℚ) (node bankStr : String)
    (sw : List (String × ℚ)) (c : Bool) (es : List Entry)
    (H : pcLe (fragLetters (pyJoin " " (sw.map Prod.fst))) (fragLetters bankStr) = true)
    (hok : backpropE gm node (fragLetters bankStr) sw c = .ok es) :
    ∀ e ∈ es, conservesBank bankStr e := by
  unfold backpropE at hok
  cases hl : sw.getLast? with
  | none =>
    rw [hl] at hok
    cases hok
    intro e he
    cases he
  | some p =>
    obtain ⟨lw, lq⟩ := p
    rw [hl] at hok
    intro e he
    refine backpropGo_conserves gm node bankStr lw c sw "" [] es ?_ hok e he
    intro ch hch
    have := counts_of_pcLe bankStr (sw.map Prod.fst) H ch hch
    rw [List.map_map] at this
    simpa using this

/-- In c1663 mode `Solver.hard_validate` can never accept: the untokenized
fragment's only word is the whole sentence, which would have to equal `"I"`
and simultaneously end in `"w!!"`. -/
theorem solverHardValidate_c1663_never_true (bank : PyCounter) (vocab : List String)
    (s : String) : solverHardValidate bank vocab true s ≠ .ok true := by
  intro hcontra
  obtain ⟨_, _, hc⟩ := hard_some_elim _ _ _ _ _ hcontra
  obtain ⟨hw0, hsl, _, _⟩ := hc rfl
  have hs : s = "I" := by simpa [mkFragment] using hw0
  subst hs
  exact absurd hsl (by decide)

/-- Every entry `Solver.assessment`'s step emits conserves the letter bank. -/
theorem assessStep_conserves (bankStr : String) (vocab : List String) (c : Bool)
    (scoredTokens : List (String × ℚ)) (i : Nat) (e : Entry) (stop : Bool)
    (H : pcLe (fragLetters (pyJoin " " (scoredTokens.map Prod.fst)))
      (fragLetters bankStr) = true)
    (hok : assessStep (fragLetters bankStr) vocab c scoredTokens i = .ok (e, stop)) :
    conservesBank bankStr e := by
  have hsent_le : ∀ ch, ch ≠ ' ' →
      ((pyJoin " " ((scoredTokens.take i).map Prod.fst)).data.count ch : Int) ≤
        pcGet (fragLetters bankStr) ch := by
    intro ch hch
    have hfull := counts_of_pcLe bankStr (scoredTokens.map Prod.fst) H ch hch
    rw [count_pyJoin _ ch hch]
    have hsub : List.Sublist
        (((scoredTokens.take i).map Prod.fst).map (fun w => w.data.count ch))
        ((scoredTokens.map Prod.fst).map (fun w => w.data.count ch)) :=
      (((List.take_sublist i scoredTokens).map Prod.fst)).map _
    have hle := List.Sublist.sum_le_sum hsub (fun a _ => Nat.zero_le a)
    have hfull2 : (Nat.cast
        (((scoredTokens.map Prod.fst).map (fun w => w.data.count ch)).sum) : Int) ≤
        pcGet (fragLetters bankStr) ch := by
      have hc : (Nat.cast
          (((scoredTokens.map Prod.fst).map (fun w => w.data.count ch)).sum) : Int) =
          ((scoredTokens.map Prod.fst).map (fun w => (w.data.count ch : Int))).sum := by
        rw [Nat.cast_list_sum, List.map_map]
        rfl
      rw [hc]
      exact hfull
    have hle2 : (Nat.cast
        ((((scoredTokens.take i).map Prod.fst).map (fun w => w.data.count ch)).sum) : Int) ≤
        (Nat.cast
          (((scoredTokens.map Prod.fst).map (fun w => w.data.count ch)).sum) : Int) := by
      exact_mod_cast hle
    exact le_trans hle2 hfull2
  unfold assessStep at hok
  simp only [] at hok
  cases hhv : solverHardValidate (fragLetters bankStr) vocab c
      (pyJoin " " ((scoredTokens.take i).map Prod.fst)) with
  | error err =>
    rw [hhv] at hok
    simp only [bind, Except.bind] at hok
    cases hok
  | ok hv =>
    rw [hhv] at hok
    simp only [bind, Except.bind, pure, Except.pure] at hok
    cases hv with
    | true =>
      cases c with
      | true => exact absurd hhv (solverHardValidate_c1663_never_true _ _ _)
      | false =>
        simp only [if_pos rfl, Bool.false_eq_true, if_false] at hok
        simp [pure, Except.pure, bind, Except.bind] at hok
        rw [← hok.1]
        intro ch
        simpa only [List.map_take] using conserve_of_counts bankStr _ hsent_le ch
    | false =>
      simp only [Bool.false_eq_true, if_false] at hok
      by_cases hi : i = scoredTokens.length
      · rw [if_pos hi] at hok
        simp [pure, Except.pure, bind, Except.bind] at hok
        rw [← hok.1]
        intro ch
        simpa only [List.map_take] using conserve_of_counts bankStr _ hsent_le ch
      · rw [if_neg hi] at hok
        simp [pure, Except.pure, bind, Except.bind] at hok
        rw [← hok.1]
        intro ch
        simpa only [List.map_take] using conserve_of_counts bankStr _ hsent_le ch

/-- Collecting `assessStep`'s entries over any index list. -/
theorem assessRun_conserves (bankStr : String) (vocab : List String) (c : Bool)
    (scoredTokens : List (String × ℚ))
    (H : pcLe (fragLetters (pyJoin " " (scoredTokens.map Prod.fst)))
      (fragLetters bankStr) = true) :
    ∀ (idxs : List Nat) (es : List Entry),
      assessRun (fragLetters bankStr) vocab c scoredTokens idxs = .ok es →
      ∀ e ∈ es, conservesBank bankStr e := by
  intro idxs
  induction idxs with
  | nil =>
    intro es hok e he
    cases hok
    cases he
  | cons i rest ih =>
    intro es hok e he
    unfold assessRun at hok
    cases hstep : assessStep (fragLetters bankStr) vocab c scoredTokens i with
    | error err =>
      rw [hstep] at hok
      simp only [bind, Except.bind] at hok
      cases hok
    | ok pr =>
      obtain ⟨e0, stop⟩ := pr
      rw [hstep] at hok
      simp only [bind, Except.bind, pure, Except.pure] at hok
      cases stop with
      | true =>
        simp only [if_pos rfl] at hok
        cases hok
        cases he with
        | head => exact assessStep_conserves bankStr vocab c scoredTokens i e true H hstep
        | tail _ htail => cases htail
      | false =>
        simp only [Bool.false_eq_true, if_false] at hok
        cases hrec : assessRun (fragLetters bankStr) vocab c scoredTokens rest with
        | error err =>
          rw [hrec] at hok
          simp only [bind, Except.bind] at hok
          cases hok
        | ok restEs =>
          rw [hrec] at hok
          simp only [bind, Except.bind, pure, Except.pure] at hok
          cases hok
          cases he with
          | head =>
            exact assessStep_conserves bankStr vocab c scoredTokens i e false H hstep
          | tail _ htail => exact ih restEs hrec e htail

/-- Claim C1: multiset conservation — every row the solver writes to the
store, whether through `backpropogation` or through `Solver.assessment`
(winner rows included), satisfies
`letters(placed) ⊎ letters(remaining) = B`, provided the assessed leaf's
letters fit in the letter bank `B`. -/
theorem solver_rows_conserve_bank (gm : List ℚ → ℚ) (node bankStr : String)
    (vocab : List String) (c : Bool) (sw : List (String × ℚ))
    (es fs : List Entry)
    (H : pcLe (fragLetters (pyJoin " " (sw.map Prod.fst)))
      (fragLetters bankStr) = true)
    (hb : backpropE gm node (fragLetters bankStr) sw c = .ok es)
    (ha : assessmentE (fragLetters bankStr) vocab c sw = .ok fs) :
    (∀ e ∈ es, conservesBank bankStr e) ∧ (∀ e ∈ fs, conservesBank bankStr e) :=
  ⟨backpropE_conserves gm node bankStr sw c es H hb,
   assessRun_conserves bankStr vocab c sw H (List.range' 1 sw.length) fs ha⟩

/-- Witness for the conservation claim at bank `"abc"`, leaf `"ab"`,
vocabulary `["ab"]`. -/
theorem solver_rows_conserve_bank_witness :
    (∀ e ∈ [(⟨"ab", "c", "", PyFloat.ninf, PyFloat.fin 0,
        PyFloat.ninf, 1⟩ : Entry)],
      conservesBank "abc" e) ∧
    (∀ e ∈ [(⟨"ab", "c", "", PyFloat.fin 0, PyFloat.fin 0,
        PyFloat.ninf, 1⟩ : Entry)],
      conservesBank "abc" e) :=
  solver_rows_conserve_bank (fun _ => 0) "" "abc" ["ab"] false [("ab", 0)]
    _ _ (by decide) (by with_unfolding_all rfl) (by with_unfolding_all rfl)

/-- Claim C3: `Fragment("behold! a dragon").words` is the whole sentence kept
as a single word, not the tokenizer output `["behold", "!", "a", "dragon"]`:
`Fragment.__init__`'s `word` flag defaults to `False`, which skips
`parse_sentence` entirely (while `parse_sentence` itself does produce the
tokenization the spec describes). -/
theorem fragment_words_not_tokenized :
    (mkFragment "behold! a dragon" false).words = ["behold! a dragon"] ∧
    parseSentence "behold! a dragon" = ["behold", "!", "a", "dragon"] := by
  exact ⟨by with_unfolding_all rfl, by with_unfolding_all rfl⟩

/-- Claim C4: on the duplicate-word leaf `a b a` (bank `aab`) the
backpropagation loop stops at the very first prefix `"a"`, recording it with
score `-∞`, mean `-∞` and status `INVALID` even though it is not the last
prefix: the terminal test `w == scored_words[-1][0]` compares by word value,
so the first `"a"` is mistaken for the final one. -/
theorem backprop_duplicate_word_truncates (gm : List ℚ → ℚ) :
    backpropE gm "" (fragLetters "aab") [("a", -1), ("b", -2), ("a", -3)] false =
      .ok [⟨"a", "ab", "", PyFloat.ninf, PyFloat.fin (-1),
        PyFloat.ninf, 1⟩] := by
  with_unfolding_all rfl

/-- Claim C5: `verify_integrity` cannot examine any nonempty store: its row
loop computes `Fragment(placed) + Fragment(remaining)` and `Fragment`
defines no `__add__`, so the first row raises `TypeError` (the source also
fetches at most 10 rows). On the spec's integrity-violation store the call
raises instead of returning `(False, histogram)`; only the empty store
returns `(True, Counter())`. -/
theorem verify_integrity_raises :
    verifyIntegrityE [("a", "b"), ("b", "x")] = .error .typeError ∧
    verifyIntegrityE [] = .ok (true, []) := by
  exact ⟨by with_unfolding_all rfl, by with_unfolding_all rfl⟩

/-- Claim C10: the winner check inside `backpropogation` is not safe to
reach.  When a prefix's letters exhaust the bank, `hard_validate` is called
with its default `vocabulary=None` and evaluates `w not in None`, raising
`TypeError`: leaf `"ab"` against bank `"ab"` triggers it. -/
theorem backprop_winner_check_raises (gm : List ℚ → ℚ) :
    backpropE gm "" (fragLetters "ab") [("ab", -1)] false = .error .typeError := by
  with_unfolding_all rfl

end Anagramist
